import Mathlib

/-!
Verification of the multi-agent translation pipeline (orchestration engine).

Shallow embedding of the routines the checked properties concern:
- the character-budget chunker (`TerminologyEntityAgent._smart_chunk_by_chars`,
  `TranslationRefinementAgent._prepare_translation_chunks`),
- the event-sourced trace store (`DatabaseManager.add_trace`,
  `DatabaseManager.create_atoms_batch`),
- batch quality estimation (`TranslationRefinementAgent._batch_estimate_quality`),
- the per-line translation fallback (`_translate_chunk`,
  `_fallback_translate_one_by_one`, `_update_cache_item`),
- the unified human review batch (`_unified_human_review`),
- Stage B terminology/entity consistency enforcement (`_check_entity_consistency`),
- workflow completion guard (`WorkflowManager.execute_workflow`),
- the active-LLM-call counter (`_llm_request_with_tracking`).

Python strings are modelled as Lean `String`/`List Char`; `str.lower()` as
`Char.toLower` (the texts involved in the checked properties are ASCII, where
the two agree); floats carrying quality scores as `ℚ`.
-/

namespace FinalDesign

/-! ## Chunker: `_smart_chunk_by_chars` (TerminologyEntityAgent.py lines 432-489)

The loop state is `(chunks_so_far, current_chunk, chunk_chars)`; `chunkGo`
processes the remaining items.  An item whose text length exceeds `max_chars`
flushes the current chunk and is emitted alone; otherwise the item is appended,
flushing first when the accumulated character count would exceed the budget. -/

def chunkGo {α : Type} (budget : Nat) (len : α → Nat) :
    List α → List α → Nat → List (List α)
  | [], current, _ => if current.isEmpty then [] else [current]
  | x :: rest, current, chars =>
    if len x > budget then
      (if current.isEmpty then [] else [current]) ++ [x] :: chunkGo budget len rest [] 0
    else if current.isEmpty = false ∧ chars + len x > budget then
      current :: chunkGo budget len rest [x] (len x)
    else
      chunkGo budget len rest (current ++ [x]) (chars + len x)

/-- `_smart_chunk_by_chars(items, max_chars, get_text_func)`: the split of
`items` into chunks, with `len` standing for `len(get_text_func(item))`. -/
def smartChunkByChars {α : Type} (budget : Nat) (len : α → Nat) (items : List α) :
    List (List α) :=
  chunkGo budget len items [] 0

/-- Total source-text character count of a chunk. -/
def chunkChars {α : Type} (len : α → Nat) (c : List α) : Nat :=
  (c.map len).sum

/-! `_prepare_translation_chunks` (TranslationRefinementAgent.py lines 342-438):
the same loop written out inline over a file's untranslated items, with
`MAX_CHUNK_CHARS = 6000` and `chunk_chars` re-initialised to 0 at the top of
an iteration that starts a fresh chunk.  Context-chunk and file-path
bookkeeping carry no information about the chunk contents and are omitted. -/

def prepGo {α : Type} (budget : Nat) (len : α → Nat) :
    List α → List α → Nat → List (List α)
  | [], current, _ => if current.isEmpty then [] else [current]
  | x :: rest, current, chars =>
    let chars1 := if current.isEmpty then 0 else chars
    if len x > budget then
      (if current.isEmpty then [] else [current]) ++ [x] :: prepGo budget len rest [] 0
    else if current.isEmpty = false ∧ chars1 + len x > budget then
      current :: prepGo budget len rest [x] (len x)
    else
      prepGo budget len rest (current ++ [x]) (chars1 + len x)

/-! ## Cache items

`CacheItem` (the minimum translatable unit held by the cache layer) as the
agents use it: `source_text`, `translated_text`, `translation_status`.
Only the two status values the multi-agent path reads and writes appear. -/

inductive TranslationStatus : Type
  | UNTRANSLATED
  | TRANSLATED
deriving DecidableEq, Inhabited

structure CItem where
  sourceText : String
  translatedText : String
  translationStatus : TranslationStatus
deriving DecidableEq, Inhabited

/-- The untranslated-item filter at the top of `_prepare_translation_chunks`:
`[item for item in cache_file.items if item.translation_status == UNTRANSLATED]`. -/
def untranslatedItems (items : List CItem) : List CItem :=
  items.filter fun it => it.translationStatus = TranslationStatus.UNTRANSLATED

/-- `_prepare_translation_chunks(cache_project)` restricted to the chunk lists it
returns: per file, the untranslated items are packed by the inline copy of the
chunking loop with `MAX_CHUNK_CHARS = 6000`, and the files' chunk lists are
concatenated in file order. -/
def prepareTranslationChunks (files : List (List CItem)) : List (List CItem) :=
  (files.map fun f =>
    prepGo 6000 (fun it => it.sourceText.length) (untranslatedItems f) [] 0).flatten

/-! ## Agent traces: `DatabaseManager.add_trace` (DatabaseManager.py lines 486-553)

A row of `agent_traces` keeps the columns the property concerns; `trace_id` is
the serial primary key.  `add_trace` runs in a single transaction: when the
action type is one of the translation actions it first sets every active trace
of the atom inactive, then inserts the new row with `is_active` equal to
"is a translation action".  No other statement in the repository ever sets
`is_active` to TRUE. -/

structure TraceRow where
  traceId : Nat
  atomId : Nat
  actionType : String
  isActive : Bool
deriving DecidableEq

structure TraceDB where
  traces : List TraceRow
  nextId : Nat
deriving DecidableEq

/-- `action_type in ['draft', 'refine', 'final', 'human_edit']`. -/
def isTranslationAction (a : String) : Bool :=
  a = "draft" ∨ a = "refine" ∨ a = "final" ∨ a = "human_edit"

/-- `UPDATE agent_traces SET is_active = FALSE WHERE atom_id = %s AND is_active = TRUE`. -/
def deactivateAtom (atomId : Nat) (rows : List TraceRow) : List TraceRow :=
  rows.map fun t =>
    if t.atomId = atomId ∧ t.isActive then { t with isActive := false } else t

/-- `add_trace(atom_id, agent_role, action_type, ...)`: the transaction's effect
on the table, returning the new state and the fresh `trace_id`. -/
def addTrace (db : TraceDB) (atomId : Nat) (actionType : String) : TraceDB × Nat :=
  let isTrans := isTranslationAction actionType
  let rows := if isTrans then deactivateAtom atomId db.traces else db.traces
  (⟨rows ++ [⟨db.nextId, atomId, actionType, isTrans⟩], db.nextId + 1⟩, db.nextId)

/-- A sequence of `add_trace` calls replayed against a table state. -/
def replayFrom (db : TraceDB) (ops : List (Nat × String)) : TraceDB :=
  ops.foldl (fun s op => (addTrace s op.1 op.2).1) db

/-- The table state after replaying `ops` against the freshly-initialised
(empty) `agent_traces` table. -/
def replayTraces (ops : List (Nat × String)) : TraceDB :=
  replayFrom ⟨[], 0⟩ ops

/-- The traces of `atomId` currently flagged active. -/
def activeTraces (db : TraceDB) (atomId : Nat) : List TraceRow :=
  db.traces.filter fun t => t.atomId = atomId ∧ t.isActive

/-- Every `trace_id` in the table is below the next serial value. -/
def idsBounded (db : TraceDB) : Prop :=
  ∀ t ∈ db.traces, t.traceId < db.nextId

/-! ## Atom batch insert: `DatabaseManager.create_atoms_batch` (DatabaseManager.py lines 219-285)

Rows of `processing_atoms` restricted to the columns the property concerns;
`atom_id` is the serial primary key, assigned in insert order.  After the
batch `INSERT`, the code re-queries `SELECT atom_id FROM processing_atoms
WHERE doc_id = %s ORDER BY position` and returns the last `len(atoms)` ids
(`atom_ids[-len(atoms):]`).  The `ORDER BY position` is modelled as a stable
sort on `position` (ties have no guaranteed order in SQL; the properties below
only rely on sorting, and the counterexample has distinct positions). -/

structure AtomRow where
  atomId : Nat
  position : Nat
  sourceText : String
deriving DecidableEq

structure AtomTable where
  rows : List AtomRow
  nextId : Nat
deriving DecidableEq

/-- One element of the `atoms` argument: `position` is optional and defaults to
the element's index (`atom.get('position', idx)`). -/
structure AtomInput where
  position : Option Nat
  sourceText : String
deriving DecidableEq

/-- Comparison used by `ORDER BY position`. -/
def byPos (a b : AtomRow) : Prop := a.position ≤ b.position

instance : DecidableRel byPos := fun a b => Nat.decLe a.position b.position

instance : IsTotal AtomRow byPos := ⟨fun a b => Nat.le_total a.position b.position⟩

instance : IsTrans AtomRow byPos := ⟨fun _ _ _ h h' => Nat.le_trans h h'⟩

/-- The rows the batch `INSERT` creates: serial ids from `nextId`, positions
defaulted to the enumeration index. -/
def newAtomRows (nextId idx : Nat) : List AtomInput → List AtomRow
  | [] => []
  | a :: rest => ⟨nextId, a.position.getD idx, a.sourceText⟩ :: newAtomRows (nextId + 1) (idx + 1) rest

/-- `create_atoms_batch(doc_id, atoms)`: returns the updated table and the id
list the function returns (the tail of the position-ordered re-query). -/
def createAtomsBatch (tbl : AtomTable) (atoms : List AtomInput) : AtomTable × List Nat :=
  if atoms.isEmpty then (tbl, [])
  else
    let newRows := newAtomRows tbl.nextId 0 atoms
    let rows := tbl.rows ++ newRows
    let queried := (List.insertionSort byPos rows).map (fun r => r.atomId)
    (⟨rows, tbl.nextId + atoms.length⟩, queried.drop (queried.length - atoms.length))

/-- C8 counterexample input: the document already holds one atom at position 5
(id 1), and one new atom with position 0 is inserted (created id 2).  The
re-query sorted by position returns ids `[2, 1]`, whose tail of length 1 is
`[1]` — the id of the pre-existing row, not of the created row. -/
def c8Table : AtomTable := ⟨[⟨1, 5, "old"⟩], 2⟩

def c8Atoms : List AtomInput := [⟨some 0, "s"⟩]

/-! ## Unified human review: `_unified_human_review`
(TranslationRefinementAgent.py lines 1704-1798)

After all chunks finish, the per-line records `(global_index, score, ...)` are
flattened across chunks, sorted ascending by score (`list.sort` with a key is
a stable sort), and the review batch is always the first `min(3, n)` entries
(`all_scores_with_index[:min(3, len(...))]`).  `review_threshold` is read from
the workflow config but used only as a payload field of the callback; no line
is ever selected by comparison with it. -/

structure ScoredRec where
  globalIndex : Nat
  score : ℚ
deriving DecidableEq

/-- Ascending score order, the `key=lambda x: x["score"]` sort. -/
def byScore (a b : ScoredRec) : Prop := a.score ≤ b.score

instance : DecidableRel byScore := fun a b => inferInstanceAs (Decidable (a.score ≤ b.score))

instance : IsTotal ScoredRec byScore := ⟨fun a b => le_total a.score b.score⟩

instance : IsTrans ScoredRec byScore := ⟨fun _ _ _ h h' => le_trans h h'⟩

/-- The flattening of per-chunk score lists into `all_scores_with_index`:
`global_index` counts lines across chunks in order. -/
def assembleScores (chunkScores : List (List ℚ)) : List ScoredRec :=
  (chunkScores.flatten.enum).map fun p => ⟨p.1, p.2⟩

def sortByScore (records : List ScoredRec) : List ScoredRec :=
  List.insertionSort byScore records

/-- `lowest_3 = all_scores_with_index[:min(3, len(all_scores_with_index))]`. -/
def reviewBatch (records : List ScoredRec) : List ScoredRec :=
  (sortByScore records).take (min 3 records.length)

/-- The guard at the top of `_unified_human_review`: review happens only when
`enable_human_review` is set and an intervention callback exists. -/
def unifiedReviewBatch (enableHumanReview hasCallback : Bool) (records : List ScoredRec) :
    Option (List ScoredRec) :=
  if enableHumanReview && hasCallback then some (reviewBatch records) else none

def c4Records : List ScoredRec := [⟨0, 1⟩, ⟨1, 2⟩, ⟨2, 3⟩, ⟨3, 4⟩]

/-! ## Batch quality estimation: `_batch_estimate_quality`
(TranslationRefinementAgent.py lines 2344-2519)

Per input line the parse of the model's reply yields one of three outcomes,
modelled as `Option (Option ℚ)`:
- `none`           — the line is absent from the extracted map,
- `some none`      — present but its score text does not parse to a number,
- `some (some q)`  — parses to the number `q`.
The score written for the line and its needs-refinement mark follow the code:
an out-of-range number (outside [1.0, 10.0]) is replaced by 8.0 and then
compared with 7.0; a missing or unparsable line gets 8.0 and `False`. -/

def resolveScore : Option (Option ℚ) → ℚ × Bool
  | some (some q) =>
    if q < 1 ∨ q > 10 then (8, decide ((8 : ℚ) < 7)) else (q, decide (q < 7))
  | some none => (8, false)
  | none => (8, false)

/-- `_batch_estimate_quality` restricted to its per-line outcome: returns
`(needs_refinement, quality_scores)` over the parse outcomes of the reply. -/
def batchEstimateQuality (parsed : List (Option (Option ℚ))) : List Bool × List ℚ :=
  (parsed.map fun p => (resolveScore p).2, parsed.map fun p => (resolveScore p).1)

/-! ## Workflow completion guard: `WorkflowManager.execute_workflow`
(WorkflowManager.py lines 422-456)

After the stage graph runs, the shared state's `did_translate` flag and
`translation_results` list decide the outcome: success only when the flag is
set and at least one result exists, otherwise a `RuntimeError` is raised
(no silent fallback). -/

structure WorkflowResult where
  success : Bool
  translatedCount : Nat
deriving DecidableEq

def executeWorkflowFinal (didTranslate : Bool) (translationResults : List String) :
    Except String WorkflowResult :=
  if didTranslate = true ∧ 0 < translationResults.length then
    Except.ok ⟨true, translationResults.length⟩
  else
    Except.error "Griptape工作流未产生有效翻译结果"

/-! ## Active LLM call accounting: `_llm_request_with_tracking`
(TranslationRefinementAgent.py lines 162-190, TerminologyEntityAgent.py lines 86-123)

Each tracked request increments `active_llm_calls` by one before the LLM call
and, in a `finally` block, sets it to `max(0, value - 1)`; a statistics
snapshot is published after each of the two mutations, so the published values
are exactly the partial fold results. -/

inductive LLMCallEvent : Type
  | callStart
  | callEnd
deriving DecidableEq

def applyLLMEvent (v : Int) : LLMCallEvent → Int
  | LLMCallEvent.callStart => v + 1
  | LLMCallEvent.callEnd => max 0 (v - 1)

/-- The counter value after a sequence of tracked-call transitions, starting
from the zero-initialised statistics. -/
def activeCallsAfter (events : List LLMCallEvent) : Int :=
  events.foldl applyLLMEvent 0

/-! ## Per-line fallback: `_translate_chunk` step 1 and
`_fallback_translate_one_by_one` (TranslationRefinementAgent.py lines 497-556
and 2667-2689)

`_translate_single_line` returns a string or a falsy value (`None`/`""`);
the oracle `single : Nat → String` models its result per item index, with
`""` standing for any falsy outcome.  `_fallback_translate_one_by_one`
iterates the chunk's items, issues one single-line request each, and writes
`"[翻译失败]" + source` (the failure marker followed by the source text) when
even the singular translation fails. -/

def failMarker : String := "[翻译失败]"

def fallbackGo (single : Nat → String) (i : Nat) : List String → List String
  | [] => []
  | src :: rest =>
    (if single i ≠ "" then single i else failMarker ++ src) :: fallbackGo single (i + 1) rest

def fallbackTranslateOneByOne (sourceTexts : List String) (single : Nat → String) :
    List String :=
  fallbackGo single 0 sourceTexts

/-- `while len(translated_texts) < chunk_size: translated_texts.append("")`. -/
def padTexts (texts : List String) (chunkSize : Nat) : List String :=
  texts ++ List.replicate (chunkSize - texts.length) ""

/-- The problem-line pass of step 1: a line is re-requested singly when it is
empty after trimming or severely truncated (`len(src) > 100` and
`len(trans) < len(src) * 0.3`, the threshold taken exactly; Python evaluates
`0.3` in binary floating point, which can differ at a few boundary lengths —
the properties below do not depend on this branch). -/
def problemLineRetry (sourceTexts texts : List String) (single : Nat → String) :
    List String :=
  texts.mapIdx fun i trans =>
    let src := sourceTexts.getD i ""
    if trans.trim = "" ∨ (src.length > 100 ∧ (trans.length : ℚ) < (src.length : ℚ) * 3 / 10)
    then (if (single i).trim ≠ "" then single i else failMarker ++ src)
    else trans

/-- Step 1 of `_translate_chunk` after `_strategy_based_batch_translation`
returned `batch`: a non-empty result of the wrong length triggers the
full-chunk per-line fallback; an empty result also falls back; otherwise the
result is padded and problem lines are retried singly. -/
def translateChunkStep1 (sourceTexts batch : List String) (single : Nat → String) :
    List String :=
  if batch ≠ [] ∧ batch.length ≠ sourceTexts.length then
    fallbackTranslateOneByOne sourceTexts single
  else if batch = [] then
    fallbackTranslateOneByOne sourceTexts single
  else
    problemLineRetry sourceTexts (padTexts batch sourceTexts.length) single

/-! ## Commit of fallback placeholders: `_update_cache_item` and the cache
update loop in `execute` (TranslationRefinementAgent.py lines 1457-1460 and
326-332)

`execute` walks every chunk's `(item, translated_text)` pairs and, for each
truthy (non-empty) text, calls `_update_cache_item`, which stores the text and
sets `translation_status = TRANSLATED`.  A later resume selects only
`UNTRANSLATED` items (`untranslatedItems` above). -/

def updateCacheItem (item : CItem) (translatedText : String) : CItem :=
  { item with translatedText := translatedText,
              translationStatus := TranslationStatus.TRANSLATED }

/-- The cache-update loop over one chunk:
`for item, translated_text in zip(chunk_items, translated_texts): if translated_text: ...`. -/
def commitChunk (items : List CItem) (texts : List String) : List CItem :=
  (items.zip texts).map fun p => if p.2 ≠ "" then updateCacheItem p.1 p.2 else p.1

/-! ## Stage B consistency enforcement: `_check_entity_consistency`
(TranslationRefinementAgent.py lines 2961-3232)

Texts are `List Char`; `str.lower()` is `lower`; the whitespace/hyphen
normalisation `re.sub(r'[\s\-–—]+', '', s.lower())` is `stripNorm`;
`'needle' in haystack` is list infixity `<:+:` of the lowered texts
(`entity.lower() in source_text.lower()` and the `re.IGNORECASE` search of the
escaped entity coincide on these predicates); the case-insensitive literal
replacement `re.sub(re.escape(entity), expected, text, flags=re.IGNORECASE)`
is `ciReplaceAll` (leftmost, non-overlapping, fuelled by the text length).

`entity_mappings` is the `(term, translation)` list the code builds from
`terminology_db` — both components non-empty after its filtering.  Per line
with a non-empty translation and per mapping whose key occurs in the source,
the code either (a) accepts the line because the expected translation already
occurs (normalised or plain case-insensitive), (b) rewrites the kept original
entity via the regex replacement, or (c) appends the line to
`inconsistency_details` without touching the text. -/

def lower (s : List Char) : List Char := s.map Char.toLower

/-- The character class `[\s\-–—]` of the normalisation regex. -/
def isSpaceHyphen (c : Char) : Bool :=
  c.isWhitespace || c = '-' || c = '–' || c = '—'

def stripNorm (s : List Char) : List Char :=
  (lower s).filter fun c => !(isSpaceHyphen c)

def ciReplaceGo (e v : List Char) : Nat → List Char → List Char
  | _, [] => []
  | 0, t => t
  | fuel + 1, c :: rest =>
    if lower ((c :: rest).take e.length) = lower e then
      v ++ ciReplaceGo e v fuel ((c :: rest).drop e.length)
    else
      c :: ciReplaceGo e v fuel rest

/-- Case-insensitive replacement of every (leftmost, non-overlapping)
occurrence of the literal `e` by `v`; the fuel `t.length` suffices because
every step consumes at least one character. -/
def ciReplaceAll (e v t : List Char) : List Char :=
  ciReplaceGo e v t.length t

structure LineCheck where
  text : List Char
  report : List (Nat × List Char × List Char)
deriving DecidableEq

/-- The body of the `for entity, expected_translation in entity_mappings.items()`
loop for one line, acting on the running `corrected_text` and the accumulated
`inconsistency_details`. -/
def checkEntityStep (source : List Char) (lineIdx : Nat)
    (st : LineCheck) (m : List Char × List Char) : LineCheck :=
  if lower m.1 <:+: lower source then
    if stripNorm m.2 <:+: stripNorm st.text ∨ lower m.2 <:+: lower st.text then
      st
    else
      let replaced := if m.2 ≠ [] ∧ m.2 ≠ m.1 then ciReplaceAll m.1 m.2 st.text else st.text
      if replaced ≠ st.text then
        { st with text := replaced }
      else
        { st with report := st.report ++ [(lineIdx, m.1, m.2)] }
  else st

/-- One line of `_check_entity_consistency`: a falsy (empty) translated text is
passed through unexamined; otherwise every mapping is applied in order. -/
def checkEntityLine (mappings : List (List Char × List Char)) (lineIdx : Nat)
    (source text : List Char) (rep0 : List (Nat × List Char × List Char)) : LineCheck :=
  if text = [] then ⟨text, rep0⟩
  else mappings.foldl (checkEntityStep source lineIdx) ⟨text, rep0⟩

def checkEntityGo (mappings : List (List Char × List Char)) :
    List (List Char × List Char) → Nat → List (Nat × List Char × List Char) →
      List (List Char) × List (Nat × List Char × List Char)
  | [], _, rep => ([], rep)
  | line :: rest, idx, rep =>
    let st := checkEntityLine mappings idx line.1 line.2 rep
    let out := checkEntityGo mappings rest (idx + 1) st.report
    (st.text :: out.1, out.2)

/-- `_check_entity_consistency(source_texts, translated_texts, ...)` over the
zipped `(source, translation)` lines: the corrected texts and the
remaining-inconsistencies report. -/
def checkEntityConsistency (mappings : List (List Char × List Char))
    (lines : List (List Char × List Char)) :
    List (List Char) × List (Nat × List Char × List Char) :=
  checkEntityGo mappings lines 0 []

def c3Mappings : List (List Char × List Char) :=
  [("a".toList, "X".toList), ("X".toList, "Y".toList)]

def c3Lines : List (List Char × List Char) :=
  [("a X".toList, "a".toList)]

/-! ## Properties -/

lemma chunkGo_flatten {α : Type} (budget : Nat) (len : α → Nat) :
    ∀ (items current : List α) (chars : Nat),
      (chunkGo budget len items current chars).flatten = current ++ items := by
  intro items
  induction items with
  | nil =>
    intro current chars
    by_cases h : current.isEmpty
    · simp [chunkGo, h, List.isEmpty_iff.mp h]
    · simp [chunkGo, h]
  | cons x rest ih =>
    intro current chars
    by_cases h1 : len x > budget
    · simp only [chunkGo, if_pos h1]
      by_cases h2 : current.isEmpty
      · simp [h2, ih, List.isEmpty_iff.mp h2]
      · simp [h2, ih]
    · by_cases h2 : current.isEmpty = false ∧ chars + len x > budget
      · simp only [chunkGo, if_neg h1, if_pos h2]
        simp [ih]
      · simp only [chunkGo, if_neg h1, if_neg h2]
        simp [ih]

lemma chunkGo_chunk_bound {α : Type} (budget : Nat) (len : α → Nat) :
    ∀ (items current : List α) (chars : Nat),
      chars = chunkChars len current → chars ≤ budget →
      ∀ c ∈ chunkGo budget len items current chars,
        chunkChars len c ≤ budget ∨ ∃ a, c = [a] ∧ len a > budget := by
  intro items
  induction items with
  | nil =>
    intro current chars hsum hle c hc
    by_cases h : current.isEmpty
    · simp [chunkGo, h] at hc
    · simp [chunkGo, h] at hc
      exact Or.inl (hc ▸ hsum ▸ hle)
  | cons x rest ih =>
    intro current chars hsum hle c hc
    by_cases h1 : len x > budget
    · simp only [chunkGo, if_pos h1] at hc
      rcases List.mem_append.mp hc with hc | hc
      · by_cases h2 : current.isEmpty
        · simp [h2] at hc
        · simp [h2] at hc
          exact Or.inl (hc ▸ hsum ▸ hle)
      · rcases List.mem_cons.mp hc with hc | hc
        · exact Or.inr ⟨x, hc, h1⟩
        · exact ih [] 0 rfl (Nat.zero_le _) c hc
    · by_cases h2 : current.isEmpty = false ∧ chars + len x > budget
      · simp only [chunkGo, if_neg h1, if_pos h2] at hc
        rcases List.mem_cons.mp hc with hc | hc
        · exact Or.inl (hc ▸ hsum ▸ hle)
        · exact ih [x] (len x) (by simp [chunkChars]) (Nat.le_of_not_lt h1) c hc
      · simp only [chunkGo, if_neg h1, if_neg h2] at hc
        refine ih (current ++ [x]) (chars + len x) ?_ ?_ c hc
        · simp [chunkChars, hsum]
        · rcases not_and_or.mp h2 with h3 | h3
          · have : current.isEmpty = true := by
              cases hcur : current.isEmpty
              · exact absurd hcur h3
              · rfl
            have hcur0 : current = [] := List.isEmpty_iff.mp this
            have : chars = 0 := by simp [hsum, hcur0, chunkChars]
            omega
          · omega

lemma prepGo_eq_chunkGo {α : Type} (budget : Nat) (len : α → Nat) :
    ∀ (items current : List α) (chars : Nat),
      prepGo budget len items current chars =
        chunkGo budget len items current (if current.isEmpty then 0 else chars) := by
  intro items
  induction items with
  | nil => intro current chars; rfl
  | cons x rest ih =>
    intro current chars
    by_cases h1 : len x > budget
    · simp only [prepGo, chunkGo, if_pos h1]
      rw [ih [] 0]
      rfl
    · by_cases h2 : current.isEmpty = false ∧
        (if current.isEmpty then 0 else chars) + len x > budget
      · simp only [prepGo, chunkGo, if_neg h1, if_pos h2]
        rw [ih [x] (len x)]
        rfl
      · simp only [prepGo, chunkGo, if_neg h1, if_neg h2]
        rw [ih (current ++ [x]) ((if current.isEmpty then 0 else chars) + len x)]
        simp

/-- C2: for every input sequence and character budget the chunker emits chunks
whose concatenation is the input; every chunk's character sum is at most the
budget unless the chunk is a single item whose own text exceeds the budget; an
oversize item always ends up alone in its chunk; and the inline chunking loop
of `_prepare_translation_chunks` produces, per file, exactly the chunks of
`_smart_chunk_by_chars` at budget 6000 over the file's untranslated items. -/
theorem C2_chunker_partition_and_budget {α : Type} (budget : Nat) (len : α → Nat)
    (items : List α) :
    (smartChunkByChars budget len items).flatten = items ∧
    (∀ c ∈ smartChunkByChars budget len items,
      chunkChars len c ≤ budget ∨ ∃ a, c = [a] ∧ len a > budget) ∧
    (∀ c ∈ smartChunkByChars budget len items, ∀ a ∈ c, len a > budget → c = [a]) ∧
    (∀ files : List (List CItem),
      prepareTranslationChunks files =
        (files.map fun f =>
          smartChunkByChars 6000 (fun it => it.sourceText.length)
            (untranslatedItems f)).flatten) := by
  have hbound := chunkGo_chunk_bound budget len items [] 0 rfl (Nat.zero_le _)
  refine ⟨chunkGo_flatten budget len items [] 0, hbound, ?_, ?_⟩
  · intro c hc a ha hlen
    rcases hbound c hc with h | ⟨b, rfl, _⟩
    · exfalso
      have : len a ≤ chunkChars len c := by
        rcases List.mem_map.mpr ⟨a, ha, rfl⟩ with hm
        exact List.single_le_sum (by intro y _; exact Nat.zero_le y) _ hm
      omega
    · have : a = b := by simpa using ha
      simp [this]
  · intro files
    unfold prepareTranslationChunks smartChunkByChars
    refine congrArg List.flatten (List.map_congr_left ?_)
    intro f _
    rw [prepGo_eq_chunkGo]
    rfl

lemma deactivateAtom_step_not_active (atomId : Nat) (t : TraceRow) :
    (decide ((if t.atomId = atomId ∧ t.isActive then
        { t with isActive := false } else t).atomId = atomId ∧
      (if t.atomId = atomId ∧ t.isActive then
        { t with isActive := false } else t).isActive = true)) = false := by
  by_cases h : t.atomId = atomId ∧ t.isActive
  · rw [if_pos h]
    simp
  · rw [if_neg h]
    simpa using h

lemma deactivateAtom_filter_self (atomId : Nat) (rows : List TraceRow) :
    (deactivateAtom atomId rows).filter (fun t => t.atomId = atomId ∧ t.isActive) = [] := by
  induction rows with
  | nil => rfl
  | cons t rest ih =>
    simp only [deactivateAtom, List.map_cons] at *
    rw [List.filter_cons]
    rw [deactivateAtom_step_not_active atomId t]
    simpa using ih

lemma deactivateAtom_step_other (atomId other : Nat) (hne : other ≠ atomId)
    (t : TraceRow) :
    (decide ((if t.atomId = atomId ∧ t.isActive then
        { t with isActive := false } else t).atomId = other ∧
      (if t.atomId = atomId ∧ t.isActive then
        { t with isActive := false } else t).isActive = true)) =
    decide (t.atomId = other ∧ t.isActive = true) := by
  by_cases h : t.atomId = atomId ∧ t.isActive
  · rw [if_pos h]
    have hnot : ¬ (t.atomId = other ∧ t.isActive = true) := by
      rintro ⟨h1, _⟩
      exact hne (h1 ▸ h.1)
    simp only [decide_eq_false hnot]
    simp
  · rw [if_neg h]

lemma deactivateAtom_filter_other (atomId other : Nat) (rows : List TraceRow)
    (hne : other ≠ atomId) :
    (deactivateAtom atomId rows).filter (fun t => t.atomId = other ∧ t.isActive) =
      rows.filter (fun t => t.atomId = other ∧ t.isActive) := by
  induction rows with
  | nil => rfl
  | cons t rest ih =>
    simp only [deactivateAtom, List.map_cons] at *
    rw [List.filter_cons, List.filter_cons]
    rw [deactivateAtom_step_other atomId other hne t]
    by_cases h2 : t.atomId = other ∧ t.isActive = true
    · rw [decide_eq_true h2]
      simp only [if_pos]
      rw [ih]
      by_cases h : t.atomId = atomId ∧ t.isActive
      · rcases h2 with ⟨h2a, _⟩
        exact absurd (h2a ▸ h.1) hne
      · rw [if_neg h]
    · rw [decide_eq_false h2]
      simpa using ih

lemma addTrace_traces (db : TraceDB) (x : Nat) (a : String) :
    (addTrace db x a).1.traces =
      (if isTranslationAction a then deactivateAtom x db.traces else db.traces) ++
        [⟨db.nextId, x, a, isTranslationAction a⟩] := rfl

lemma addTrace_nextId (db : TraceDB) (x : Nat) (a : String) :
    (addTrace db x a).1.nextId = db.nextId + 1 := rfl

lemma addTrace_retId (db : TraceDB) (x : Nat) (a : String) :
    (addTrace db x a).2 = db.nextId := rfl

lemma addTrace_active_self (db : TraceDB) (atomId : Nat) (a : String)
    (ha : isTranslationAction a = true) :
    activeTraces (addTrace db atomId a).1 atomId = [⟨db.nextId, atomId, a, true⟩] := by
  unfold activeTraces
  rw [addTrace_traces, ha]
  simp only [if_pos]
  rw [List.filter_append, deactivateAtom_filter_self]
  simp

lemma addTrace_active_preserved (db : TraceDB) (x : Nat) (a : String) (atom : Nat)
    (h : (activeTraces db atom).length ≤ 1) :
    (activeTraces (addTrace db x a).1 atom).length ≤ 1 := by
  unfold activeTraces at h ⊢
  rw [addTrace_traces, List.filter_append]
  by_cases ht : isTranslationAction a = true
  · rw [ht]
    simp only [if_pos]
    by_cases hax : atom = x
    · subst hax
      rw [deactivateAtom_filter_self]
      simp [List.filter_cons]
    · have hxa : x ≠ atom := fun h' => hax h'.symm
      rw [deactivateAtom_filter_other x atom _ hax]
      simpa [List.filter_cons, hxa] using h
  · have hb : isTranslationAction a = false := by
      cases hv : isTranslationAction a
      · rfl
      · exact absurd hv ht
    rw [hb]
    simp only [Bool.false_eq_true, if_false]
    simpa [List.filter_cons] using h

lemma replayFrom_active_bound (ops : List (Nat × String)) :
    ∀ (db : TraceDB), (∀ atom, (activeTraces db atom).length ≤ 1) →
      ∀ atom, (activeTraces (replayFrom db ops) atom).length ≤ 1 := by
  induction ops with
  | nil => intro db h atom; exact h atom
  | cons op rest ih =>
    intro db h atom
    exact ih (addTrace db op.1 op.2).1
      (fun at0 => addTrace_active_preserved db op.1 op.2 at0 (h at0)) atom

lemma addTrace_idsBounded (db : TraceDB) (x : Nat) (a : String)
    (h : idsBounded db) : idsBounded (addTrace db x a).1 := by
  intro t ht
  rw [addTrace_traces] at ht
  rw [addTrace_nextId]
  rcases List.mem_append.mp ht with ht | ht
  · by_cases hi : isTranslationAction a = true
    · rw [hi] at ht
      simp only [if_pos] at ht
      rcases List.mem_map.mp ht with ⟨s, hs, hst⟩
      have := h s hs
      by_cases hc : s.atomId = x ∧ s.isActive
      · rw [if_pos hc] at hst
        simp only [← hst]
        omega
      · rw [if_neg hc] at hst
        subst hst
        omega
    · have hb : isTranslationAction a = false := by
        cases hv : isTranslationAction a
        · rfl
        · exact absurd hv hi
      rw [hb] at ht
      simp only [Bool.false_eq_true, if_false] at ht
      have := h t ht
      omega
  · simp only [List.mem_singleton] at ht
    subst ht
    simp only
    omega

lemma addTrace_keeps_inactive (db : TraceDB) (x : Nat) (a : String) (tid : Nat)
    (htid : tid < db.nextId)
    (h : ∀ t ∈ db.traces, t.traceId = tid → t.isActive = false) :
    ∀ t ∈ (addTrace db x a).1.traces, t.traceId = tid → t.isActive = false := by
  intro t ht he
  rw [addTrace_traces] at ht
  rcases List.mem_append.mp ht with ht | ht
  · by_cases hi : isTranslationAction a = true
    · rw [hi] at ht
      simp only [if_pos] at ht
      rcases List.mem_map.mp ht with ⟨s, hs, hst⟩
      by_cases hc : s.atomId = x ∧ s.isActive
      · rw [if_pos hc] at hst
        simp [← hst]
      · rw [if_neg hc] at hst
        subst hst
        exact h _ hs he
    · have hb : isTranslationAction a = false := by
        cases hv : isTranslationAction a
        · rfl
        · exact absurd hv hi
      rw [hb] at ht
      simp only [Bool.false_eq_true, if_false] at ht
      exact h _ ht he
  · simp only [List.mem_singleton] at ht
    subst ht
    simp only at he
    omega

lemma replayFrom_keeps_inactive (ops : List (Nat × String)) :
    ∀ (db : TraceDB) (tid : Nat), tid < db.nextId → idsBounded db →
      (∀ t ∈ db.traces, t.traceId = tid → t.isActive = false) →
      ∀ t ∈ (replayFrom db ops).traces, t.traceId = tid → t.isActive = false := by
  induction ops with
  | nil => intro db tid _ _ h; exact h
  | cons op rest ih =>
    intro db tid htid hbound h
    refine ih (addTrace db op.1 op.2).1 tid ?_ (addTrace_idsBounded db op.1 op.2 hbound) ?_
    · rw [addTrace_nextId]
      omega
    · exact addTrace_keeps_inactive db op.1 op.2 tid htid h

/-- C1: replaying any sequence of `add_trace` calls against the fresh table
leaves, for every atom, at most one active trace; a translation-action insert
(draft/refine/final/human_edit) leaves the freshly-inserted row as the single
active trace of its atom in one step of `addTrace` (one transaction); an
`evaluate` insert appends its row inactive and touches nothing else; and an
`evaluate` trace inserted at any reachable state is still inactive after any
further sequence of `add_trace` calls. -/
theorem C1_active_trace_invariant :
    (∀ (ops : List (Nat × String)) (atom : Nat),
      (activeTraces (replayTraces ops) atom).length ≤ 1) ∧
    (∀ (db : TraceDB) (atom : Nat) (a : String), isTranslationAction a = true →
      activeTraces (addTrace db atom a).1 atom = [⟨db.nextId, atom, a, true⟩]) ∧
    (∀ (db : TraceDB) (atom : Nat),
      (addTrace db atom "evaluate").1.traces =
        db.traces ++ [⟨db.nextId, atom, "evaluate", false⟩]) ∧
    (∀ (ops₁ : List (Nat × String)) (atom : Nat) (ops₂ : List (Nat × String)),
      ∀ t ∈ (replayFrom (addTrace (replayTraces ops₁) atom "evaluate").1 ops₂).traces,
        t.traceId = (addTrace (replayTraces ops₁) atom "evaluate").2 →
        t.isActive = false) := by
  have hbound : ∀ ops : List (Nat × String), idsBounded (replayTraces ops) := by
    intro ops
    unfold replayTraces
    induction ops using List.reverseRecOn with
    | nil => intro t ht; simp [replayFrom] at ht
    | append_singleton rest op ih =>
      unfold replayFrom at *
      rw [List.foldl_append]
      exact addTrace_idsBounded _ op.1 op.2 ih
  refine ⟨?_, fun db atom a ha => addTrace_active_self db atom a ha, ?_, ?_⟩
  · intro ops atom
    exact replayFrom_active_bound ops ⟨[], 0⟩ (fun _ => by simp [activeTraces]) atom
  · intro db atom
    have heval : isTranslationAction "evaluate" = false := by decide
    rw [addTrace_traces, heval]
    simp
  · intro ops₁ atom ops₂
    set db₁ := replayTraces ops₁ with hdb₁
    have hb₁ : idsBounded db₁ := hbound ops₁
    have heval : isTranslationAction "evaluate" = false := by decide
    refine replayFrom_keeps_inactive ops₂ (addTrace db₁ atom "evaluate").1
      (addTrace db₁ atom "evaluate").2 ?_ (addTrace_idsBounded db₁ atom "evaluate" hb₁) ?_
    · rw [addTrace_nextId, addTrace_retId]
      omega
    · intro t ht he
      rw [addTrace_traces, heval] at ht
      rw [addTrace_retId] at he
      simp only [Bool.false_eq_true, if_false] at ht
      rcases List.mem_append.mp ht with ht | ht
      · have := hb₁ t ht
        omega
      · simp only [List.mem_singleton] at ht
        subst ht
        simp [heval]

/-- C8 counterexample: `create_atoms_batch` on a document with a pre-existing
atom at a higher position returns the pre-existing row's id instead of the id
of the row created for the input atom, refuting the claim that the i-th
returned id identifies the row created for the i-th input atom. -/
theorem C8_counterexample :
    (createAtomsBatch c8Table c8Atoms).2 = [1] ∧
    (newAtomRows c8Table.nextId 0 c8Atoms).map (fun r => r.atomId) = [2] ∧
    (createAtomsBatch c8Table c8Atoms).2 ≠
      (newAtomRows c8Table.nextId 0 c8Atoms).map (fun r => r.atomId) := by
  refine ⟨?_, rfl, ?_⟩
  · rfl
  · decide

/-- C8 (amended): when the document holds no pre-existing atoms and the input
atoms carry strictly increasing effective positions, `create_atoms_batch`
returns exactly one id per input atom, in input order, the i-th id being the
id of the row created for the i-th input atom; in general the tail-`N`
re-query may return ids of pre-existing rows (see the counterexample). -/
theorem C8_batch_ids_when_fresh (tbl : AtomTable) (atoms : List AtomInput)
    (hempty : tbl.rows = [])
    (hsorted : (newAtomRows tbl.nextId 0 atoms).Pairwise
      (fun r s => r.position < s.position)) :
    (createAtomsBatch tbl atoms).2 =
      (newAtomRows tbl.nextId 0 atoms).map (fun r => r.atomId) ∧
    (createAtomsBatch tbl atoms).1.rows = newAtomRows tbl.nextId 0 atoms := by
  by_cases hnil : atoms.isEmpty
  · have : atoms = [] := List.isEmpty_iff.mp hnil
    subst this
    simp [createAtomsBatch, newAtomRows, hempty]
  · have hlen : ∀ n i (l : List AtomInput), (newAtomRows n i l).length = l.length := by
      intro n i l
      induction l generalizing n i with
      | nil => rfl
      | cons a rest ih => simp [newAtomRows, ih]
    have hsort : List.insertionSort byPos (newAtomRows tbl.nextId 0 atoms) =
        newAtomRows tbl.nextId 0 atoms :=
      List.Sorted.insertionSort_eq (hsorted.imp fun h => Nat.le_of_lt h)
    unfold createAtomsBatch
    rw [if_neg (by simpa using hnil)]
    simp only [hempty, List.nil_append]
    constructor
    · rw [hsort, List.length_map, hlen]
      simp
    · trivial

/-- C8 witness: on an empty document with effective positions `[0, 7]`
(the first defaulted from the enumeration index), the batch insert returns the
created ids `[0, 1]` in input order. -/
theorem C8_batch_ids_when_fresh_witness :
    ((⟨[], 0⟩ : AtomTable).rows = [] ∧
      (newAtomRows (0 : Nat) 0 [⟨none, "a"⟩, ⟨some 7, "b"⟩]).Pairwise
        (fun r s => r.position < s.position)) ∧
    ((createAtomsBatch ⟨[], 0⟩ [⟨none, "a"⟩, ⟨some 7, "b"⟩]).2 =
        (newAtomRows (0 : Nat) 0 [⟨none, "a"⟩, ⟨some 7, "b"⟩]).map (fun r => r.atomId) ∧
      (createAtomsBatch ⟨[], 0⟩ [⟨none, "a"⟩, ⟨some 7, "b"⟩]).1.rows =
        newAtomRows (0 : Nat) 0 [⟨none, "a"⟩, ⟨some 7, "b"⟩]) :=
  ⟨⟨rfl, by decide⟩,
    C8_batch_ids_when_fresh ⟨[], 0⟩ [⟨none, "a"⟩, ⟨some 7, "b"⟩] rfl (by decide)⟩

/-- C4 counterexample: with review enabled and a callback present, four lines
all score below the 7.0 threshold, yet the assembled batch is only the three
lowest — the line with score 4 is below the threshold and absent, refuting the
claim that the batch contains every line whose score is below the threshold. -/
theorem C4_counterexample :
    unifiedReviewBatch true true c4Records = some (reviewBatch c4Records) ∧
    (⟨3, 4⟩ : ScoredRec) ∈ c4Records ∧
    ((⟨3, 4⟩ : ScoredRec).score < 7) ∧
    (⟨3, 4⟩ : ScoredRec) ∉ reviewBatch c4Records := by
  refine ⟨rfl, by decide, by decide, by decide⟩

/-- C4 (amended): when human review is enabled and an intervention callback
exists, the review batch assembled after all chunks finish is always the
`min(3, n)` lowest-scored lines, regardless of how many lines score below the
review threshold; the threshold is only forwarded to the callback. -/
theorem C4_review_batch_three_lowest (records : List ScoredRec) :
    (reviewBatch records).length = min 3 records.length ∧
    List.Sorted byScore (reviewBatch records) ∧
    (∃ rest, List.Perm records (reviewBatch records ++ rest) ∧
      ∀ b ∈ reviewBatch records, ∀ x ∈ rest, b.score ≤ x.score) ∧
    (∀ enableHumanReview hasCallback : Bool,
      unifiedReviewBatch enableHumanReview hasCallback records ≠ none →
        unifiedReviewBatch enableHumanReview hasCallback records =
          some (reviewBatch records)) := by
  have hperm : List.Perm (sortByScore records) records :=
    List.perm_insertionSort byScore records
  have hsorted : List.Sorted byScore (sortByScore records) :=
    List.sorted_insertionSort byScore records
  have hlen : (sortByScore records).length = records.length := hperm.length_eq
  refine ⟨?_, ?_, ?_, ?_⟩
  · rw [reviewBatch, List.length_take, hlen]
    omega
  · exact hsorted.sublist (List.take_sublist _ _)
  · refine ⟨(sortByScore records).drop (min 3 records.length), ?_, ?_⟩
    · rw [reviewBatch, List.take_append_drop]
      exact hperm.symm
    · intro b hb x hx
      have := List.pairwise_append.mp
        ((List.take_append_drop (min 3 records.length) (sortByScore records)).symm ▸ hsorted)
      exact this.2.2 b hb x hx
  · intro e c hne
    unfold unifiedReviewBatch at *
    by_cases h : e && c
    · rw [if_pos h]
    · rw [if_neg h] at hne
      exact absurd rfl hne

lemma getD_map_resolve {β : Type} (f : Option (Option ℚ) → β) :
    ∀ (l : List (Option (Option ℚ))) (i : Nat),
      (l.map f).getD i (f none) = f (l.getD i none) := by
  intro l
  induction l with
  | nil => intro i; rfl
  | cons p rest ih =>
    intro i
    cases i with
    | zero => rfl
    | succ j => exact ih j

/-- C5: a score parsing outside [1.0, 10.0], or missing, or unparsable, is
replaced by the default 8.0; an in-range score is kept; a line is marked as
needing refinement exactly when its resulting score is strictly below 7.0, so
defaulted lines are never marked; and `_batch_estimate_quality` applies this
rule to every line of the batch. -/
theorem C5_score_clamping_and_marking :
    (∀ q : ℚ, (q < 1 ∨ q > 10) → resolveScore (some (some q)) = (8, false)) ∧
    resolveScore (some none) = (8, false) ∧
    resolveScore none = (8, false) ∧
    (∀ q : ℚ, ¬ (q < 1 ∨ q > 10) → resolveScore (some (some q)) = (q, decide (q < 7))) ∧
    (∀ p : Option (Option ℚ), (resolveScore p).2 = true ↔ (resolveScore p).1 < 7) ∧
    (∀ (parsed : List (Option (Option ℚ))) (i : Nat),
      (batchEstimateQuality parsed).2.getD i 8 = (resolveScore (parsed.getD i none)).1 ∧
      (batchEstimateQuality parsed).1.getD i false = (resolveScore (parsed.getD i none)).2) := by
  have h87 : ¬ (8 : ℚ) < 7 := by norm_num
  refine ⟨?_, rfl, rfl, ?_, ?_, ?_⟩
  · intro q hq
    rw [resolveScore, if_pos hq, decide_eq_false h87]
  · intro q hq
    rw [resolveScore, if_neg hq]
  · intro p
    match p with
    | some (some q) =>
      by_cases hq : q < 1 ∨ q > 10
      · rw [resolveScore, if_pos hq, decide_eq_false h87]
        exact ⟨fun h => Bool.noConfusion h, fun h => absurd h h87⟩
      · rw [resolveScore, if_neg hq]
        exact ⟨fun h => of_decide_eq_true h, fun h => decide_eq_true h⟩
    | some none => exact ⟨fun h => Bool.noConfusion h, fun h => absurd h h87⟩
    | none => exact ⟨fun h => Bool.noConfusion h, fun h => absurd h h87⟩
  · intro parsed i
    constructor
    · exact getD_map_resolve (fun p => (resolveScore p).1) parsed i
    · exact getD_map_resolve (fun p => (resolveScore p).2) parsed i

/-- C7: when the workflow completes with the did-translate flag unset or with
zero translation results, `execute_workflow` raises a fatal error to its
caller; it returns a success result only when the flag is set and at least one
translation result exists. -/
theorem C7_zero_results_is_fatal (didTranslate : Bool) (results : List String) :
    ((didTranslate = false ∨ results = []) →
      executeWorkflowFinal didTranslate results =
        Except.error "Griptape工作流未产生有效翻译结果") ∧
    (∀ r, executeWorkflowFinal didTranslate results = Except.ok r →
      didTranslate = true ∧ 0 < results.length ∧ r.success = true) := by
  constructor
  · intro h
    unfold executeWorkflowFinal
    rw [if_neg]
    rintro ⟨h1, h2⟩
    rcases h with h | h
    · rw [h1] at h
      exact Bool.noConfusion h
    · rw [h] at h2
      exact Nat.lt_irrefl 0 h2
  · intro r hr
    unfold executeWorkflowFinal at hr
    by_cases h : didTranslate = true ∧ 0 < results.length
    · rw [if_pos h] at hr
      refine ⟨h.1, h.2, ?_⟩
      cases hr
      rfl
    · rw [if_neg h] at hr
      cases hr

/-- C7 witness: the guard at a concrete failing input (flag set, zero results)
and a concrete succeeding input. -/
theorem C7_zero_results_is_fatal_witness :
    ((true = false ∨ ([] : List String) = []) →
      executeWorkflowFinal true [] =
        Except.error "Griptape工作流未产生有效翻译结果") ∧
    (∀ r, executeWorkflowFinal true [] = Except.ok r →
      true = true ∧ 0 < ([] : List String).length ∧ r.success = true) :=
  C7_zero_results_is_fatal true []

lemma foldl_applyLLMEvent_nonneg (events : List LLMCallEvent) :
    ∀ v : Int, 0 ≤ v → 0 ≤ events.foldl applyLLMEvent v := by
  induction events with
  | nil => intro v hv; exact hv
  | cons e rest ih =>
    intro v hv
    refine ih (applyLLMEvent v e) ?_
    cases e
    · simp [applyLLMEvent]
      omega
    · simp [applyLLMEvent]

/-- C9: under any interleaving of increments (`+= 1` before the call) and
`finally`-block decrements (`= max(0, value - 1)` after it), the
`active_llm_calls` counter is never negative, so every published snapshot
carries a non-negative active-call count. -/
theorem C9_active_calls_nonneg (events : List LLMCallEvent) :
    0 ≤ activeCallsAfter events ∧
    ∀ n : Nat, 0 ≤ activeCallsAfter (events.take n) :=
  ⟨foldl_applyLLMEvent_nonneg events 0 le_rfl,
    fun n => foldl_applyLLMEvent_nonneg (events.take n) 0 le_rfl⟩

lemma fallbackGo_getD (single : Nat → String) :
    ∀ (sources : List String) (k i : Nat), i < sources.length →
      (fallbackGo single k sources).getD i "" =
        (if single (k + i) ≠ "" then single (k + i) else failMarker ++ sources.getD i "") := by
  intro sources
  induction sources with
  | nil => intro k i h; cases h
  | cons src rest ih =>
    intro k i h
    cases i with
    | zero => simp [fallbackGo]
    | succ j =>
      have hj : j < rest.length := by simpa using h
      have := ih (k + 1) j hj
      simp only [fallbackGo, List.getD_cons_succ]
      rw [this]
      have : k + 1 + j = k + (j + 1) := by omega
      rw [this]

/-- C6: whenever step 1's batch translation returns a non-empty list whose
length differs from the chunk size, the whole chunk is re-translated item by
item through the per-line fallback; and in that fallback every item whose
single-line translation fails receives the failure marker followed by its
source text. -/
theorem C6_mismatch_triggers_fallback (sourceTexts batch : List String)
    (single : Nat → String) (hne : batch ≠ [])
    (hmismatch : batch.length ≠ sourceTexts.length) :
    translateChunkStep1 sourceTexts batch single =
      fallbackTranslateOneByOne sourceTexts single ∧
    (∀ i, i < sourceTexts.length → single i = "" →
      (fallbackTranslateOneByOne sourceTexts single).getD i "" =
        failMarker ++ sourceTexts.getD i "") ∧
    (∀ i, i < sourceTexts.length → single i ≠ "" →
      (fallbackTranslateOneByOne sourceTexts single).getD i "" = single i) := by
  refine ⟨?_, ?_, ?_⟩
  · unfold translateChunkStep1
    rw [if_pos ⟨hne, hmismatch⟩]
  · intro i hi hfail
    unfold fallbackTranslateOneByOne
    rw [fallbackGo_getD single sourceTexts 0 i hi]
    simp [hfail]
  · intro i hi hok
    unfold fallbackTranslateOneByOne
    rw [fallbackGo_getD single sourceTexts 0 i hi]
    simp [hok]

/-- C6 witness: a two-item chunk whose batch translation returned one line;
the fallback rewrites both lines, and with a failing single-line oracle the
entries are the marker plus the source. -/
theorem C6_mismatch_triggers_fallback_witness :
    (["x"] : List String) ≠ [] ∧
    (["x"] : List String).length ≠ (["a", "b"] : List String).length ∧
    (translateChunkStep1 ["a", "b"] ["x"] (fun _ => "") =
        fallbackTranslateOneByOne ["a", "b"] (fun _ => "") ∧
      (∀ i, i < (["a", "b"] : List String).length → (fun _ : Nat => "") i = "" →
        (fallbackTranslateOneByOne ["a", "b"] (fun _ => "")).getD i "" =
          failMarker ++ (["a", "b"] : List String).getD i "") ∧
      (∀ i, i < (["a", "b"] : List String).length → (fun _ : Nat => "") i ≠ "" →
        (fallbackTranslateOneByOne ["a", "b"] (fun _ => "")).getD i "" =
          (fun _ : Nat => "") i)) :=
  ⟨by decide, by decide,
    C6_mismatch_triggers_fallback ["a", "b"] ["x"] (fun _ => "")
      (by decide) (by decide)⟩

lemma commitChunk_getD (items : List CItem) (texts : List String) (i : Nat)
    (hi : i < items.length) (ht : i < texts.length) :
    (commitChunk items texts).getD i default =
      (if texts.getD i "" ≠ "" then updateCacheItem (items.getD i default) (texts.getD i "")
       else items.getD i default) := by
  induction items generalizing texts i with
  | nil => cases hi
  | cons item rest ih =>
    cases texts with
    | nil => cases ht
    | cons t ts =>
      cases i with
      | zero => simp [commitChunk]
      | succ j =>
        have hj : j < rest.length := by simpa using hi
        have htj : j < ts.length := by simpa using ht
        simpa [commitChunk] using ih ts j hj htj

lemma failMarker_append_ne_empty (src : String) : failMarker ++ src ≠ "" := by
  intro h
  have := congrArg String.length h
  rw [String.length_append] at this
  have hm : failMarker.length = 6 := by decide
  simp [hm] at this

/-- C10: when the per-line fallback fails for an item, the placeholder (failure
marker plus source text) is non-empty, so the commit loop stores it as the
item's `translated_text` and sets `translation_status` to TRANSLATED exactly
like a successful line; such an item is therefore not selected as untranslated
by a subsequent resume run. -/
theorem C10_failed_item_committed_as_translated (sourceTexts : List String)
    (single : Nat → String) (items : List CItem) (i : Nat)
    (hi : i < sourceTexts.length) (hlen : items.length = sourceTexts.length)
    (hfail : single i = "") :
    (fallbackTranslateOneByOne sourceTexts single).getD i "" =
      failMarker ++ sourceTexts.getD i "" ∧
    (commitChunk items (fallbackTranslateOneByOne sourceTexts single)).getD i default =
      updateCacheItem (items.getD i default) (failMarker ++ sourceTexts.getD i "") ∧
    ((commitChunk items (fallbackTranslateOneByOne sourceTexts single)).getD i
        default).translationStatus = TranslationStatus.TRANSLATED ∧
    (commitChunk items (fallbackTranslateOneByOne sourceTexts single)).getD i default ∉
      untranslatedItems
        (commitChunk items (fallbackTranslateOneByOne sourceTexts single)) := by
  have hfb_len : ∀ (k : Nat) (l : List String), (fallbackGo single k l).length = l.length := by
    intro k l
    induction l generalizing k with
    | nil => rfl
    | cons a rest ih => simp [fallbackGo, ih]
  have htext : (fallbackTranslateOneByOne sourceTexts single).getD i "" =
      failMarker ++ sourceTexts.getD i "" := by
    unfold fallbackTranslateOneByOne
    rw [fallbackGo_getD single sourceTexts 0 i hi]
    simp [hfail]
  have htlen : i < (fallbackTranslateOneByOne sourceTexts single).length := by
    unfold fallbackTranslateOneByOne
    rw [hfb_len]
    exact hi
  have hcommit : (commitChunk items (fallbackTranslateOneByOne sourceTexts single)).getD i
      default = updateCacheItem (items.getD i default) (failMarker ++ sourceTexts.getD i "") := by
    rw [commitChunk_getD items _ i (hlen ▸ hi) htlen, htext,
      if_pos (failMarker_append_ne_empty _)]
  have hstatus : ((commitChunk items (fallbackTranslateOneByOne sourceTexts single)).getD i
      default).translationStatus = TranslationStatus.TRANSLATED := by
    rw [hcommit]
    rfl
  refine ⟨htext, hcommit, hstatus, ?_⟩
  intro hmem
  unfold untranslatedItems at hmem
  have := List.of_mem_filter hmem
  rw [hstatus] at this
  exact absurd (of_decide_eq_true this) (by intro h; cases h)

/-- C10 witness: one-item chunk, failing single-line oracle; the committed item
carries the placeholder text and TRANSLATED status. -/
theorem C10_failed_item_committed_witness :
    ((0 : Nat) < (["abc"] : List String).length ∧
      ([⟨"abc", "", TranslationStatus.UNTRANSLATED⟩] : List CItem).length =
        (["abc"] : List String).length ∧
      (fun _ : Nat => "") 0 = "") ∧
    ((fallbackTranslateOneByOne ["abc"] (fun _ => "")).getD 0 "" =
        failMarker ++ (["abc"] : List String).getD 0 "" ∧
      (commitChunk [⟨"abc", "", TranslationStatus.UNTRANSLATED⟩]
          (fallbackTranslateOneByOne ["abc"] (fun _ => ""))).getD 0 default =
        updateCacheItem (([⟨"abc", "", TranslationStatus.UNTRANSLATED⟩] :
            List CItem).getD 0 default) (failMarker ++ (["abc"] : List String).getD 0 "") ∧
      ((commitChunk [⟨"abc", "", TranslationStatus.UNTRANSLATED⟩]
          (fallbackTranslateOneByOne ["abc"] (fun _ => ""))).getD 0
          default).translationStatus = TranslationStatus.TRANSLATED ∧
      (commitChunk [⟨"abc", "", TranslationStatus.UNTRANSLATED⟩]
          (fallbackTranslateOneByOne ["abc"] (fun _ => ""))).getD 0 default ∉
        untranslatedItems (commitChunk [⟨"abc", "", TranslationStatus.UNTRANSLATED⟩]
          (fallbackTranslateOneByOne ["abc"] (fun _ => "")))) :=
  ⟨⟨by decide, by decide, rfl⟩,
    C10_failed_item_committed_as_translated ["abc"] (fun _ => "")
      [⟨"abc", "", TranslationStatus.UNTRANSLATED⟩] 0 (by decide) (by decide) rfl⟩

lemma isInfix_map {α β : Type} (f : α → β) {s t : List α} (h : s <:+: t) :
    s.map f <:+: t.map f := by
  obtain ⟨u, w, rfl⟩ := h
  exact ⟨u.map f, w.map f, by simp⟩

lemma isInfix_filter {α : Type} (p : α → Bool) {s t : List α} (h : s <:+: t) :
    s.filter p <:+: t.filter p := by
  obtain ⟨u, w, rfl⟩ := h
  exact ⟨u.filter p, w.filter p, by simp⟩

lemma stripNorm_infix_of_lower {s t : List Char} (h : lower s <:+: lower t) :
    stripNorm s <:+: stripNorm t :=
  isInfix_filter _ h

lemma ciReplaceGo_changed_has_v (e v : List Char) :
    ∀ (fuel : Nat) (t : List Char), ciReplaceGo e v fuel t ≠ t →
      v <:+: ciReplaceGo e v fuel t := by
  intro fuel
  induction fuel with
  | zero =>
    intro t h
    cases t with
    | nil => exact absurd rfl h
    | cons c rest => exact absurd rfl h
  | succ n ih =>
    intro t h
    cases t with
    | nil => exact absurd rfl h
    | cons c rest =>
      simp only [ciReplaceGo] at h ⊢
      by_cases hm : lower ((c :: rest).take e.length) = lower e
      · rw [if_pos hm] at h ⊢
        exact ⟨[], ciReplaceGo e v n ((c :: rest).drop e.length), by simp⟩
      · rw [if_neg hm] at h ⊢
        have hrec : ciReplaceGo e v n rest ≠ rest := by
          intro heq
          exact h (by rw [heq])
        obtain ⟨u, w, hw⟩ := ih rest hrec
        exact ⟨c :: u, w, by simp [← hw]⟩

lemma ciReplaceAll_changed_has_v (e v t : List Char) (h : ciReplaceAll e v t ≠ t) :
    v <:+: ciReplaceAll e v t :=
  ciReplaceGo_changed_has_v e v t.length t h

lemma checkEntityStep_report_mono (source : List Char) (lineIdx : Nat)
    (st : LineCheck) (m : List Char × List Char) (x : Nat × List Char × List Char)
    (hx : x ∈ st.report) : x ∈ (checkEntityStep source lineIdx st m).report := by
  unfold checkEntityStep
  by_cases h1 : lower m.1 <:+: lower source
  · rw [if_pos h1]
    by_cases h2 : stripNorm m.2 <:+: stripNorm st.text ∨ lower m.2 <:+: lower st.text
    · rw [if_pos h2]
      exact hx
    · rw [if_neg h2]
      by_cases h3 : (if m.2 ≠ [] ∧ m.2 ≠ m.1 then ciReplaceAll m.1 m.2 st.text
          else st.text) ≠ st.text
      · rw [if_pos h3]
        exact hx
      · rw [if_neg h3]
        exact List.mem_append_left _ hx
  · rw [if_neg h1]
    exact hx

lemma foldl_checkEntityStep_report_mono (source : List Char) (lineIdx : Nat)
    (ms : List (List Char × List Char)) :
    ∀ (st : LineCheck) (x : Nat × List Char × List Char), x ∈ st.report →
      x ∈ (ms.foldl (checkEntityStep source lineIdx) st).report := by
  induction ms with
  | nil => intro st x hx; exact hx
  | cons m rest ih =>
    intro st x hx
    exact ih _ x (checkEntityStep_report_mono source lineIdx st m x hx)

/-- C3 (amended): for every line with a non-empty translation and every
`(key, val)` mapping whose key occurs case-insensitively in the line's source,
at the moment Stage B processes that mapping the line's running text contains
`val` (case-insensitively, after whitespace/hyphen normalisation — possibly
just established by the automatic case-insensitive replacement of the kept
source term), or the `(line, key, val)` triple is appended to the
remaining-inconsistencies report — it then persists into the report
`_check_entity_consistency` returns for that line — and that mapping's
processing step leaves the text unchanged.  (Replacements performed for
mappings processed later may remove `val` again, and a reported line may still
be mutated by other mappings: see the counterexample.) -/
theorem C3_per_pair_enforced (mappings : List (List Char × List Char))
    (source text : List Char) (lineIdx : Nat)
    (rep0 : List (Nat × List Char × List Char))
    (pre post : List (List Char × List Char)) (e v : List Char)
    (hsplit : mappings = pre ++ (e, v) :: post)
    (htext : text ≠ [])
    (hocc : lower e <:+: lower source) :
    stripNorm v <:+:
      stripNorm (checkEntityStep source lineIdx
        (pre.foldl (checkEntityStep source lineIdx) ⟨text, rep0⟩) (e, v)).text ∨
    ((lineIdx, e, v) ∈ (checkEntityLine mappings lineIdx source text rep0).report ∧
      (checkEntityStep source lineIdx
          (pre.foldl (checkEntityStep source lineIdx) ⟨text, rep0⟩) (e, v)).text =
        (pre.foldl (checkEntityStep source lineIdx) ⟨text, rep0⟩).text) := by
  set st := pre.foldl (checkEntityStep source lineIdx) ⟨text, rep0⟩ with hst
  have hline : checkEntityLine mappings lineIdx source text rep0 =
      post.foldl (checkEntityStep source lineIdx) (checkEntityStep source lineIdx st (e, v)) := by
    unfold checkEntityLine
    rw [if_neg htext, hsplit, List.foldl_append, List.foldl_cons]
  by_cases h2 : stripNorm v <:+: stripNorm st.text ∨ lower v <:+: lower st.text
  · left
    have hkeep : checkEntityStep source lineIdx st (e, v) = st := by
      unfold checkEntityStep
      rw [if_pos hocc, if_pos h2]
    rw [hkeep]
    rcases h2 with h2 | h2
    · exact h2
    · exact stripNorm_infix_of_lower h2
  · by_cases h3 : (if v ≠ [] ∧ v ≠ e then ciReplaceAll e v st.text else st.text) ≠ st.text
    · left
      have hstep : (checkEntityStep source lineIdx st (e, v)).text =
          (if v ≠ [] ∧ v ≠ e then ciReplaceAll e v st.text else st.text) := by
        unfold checkEntityStep
        rw [if_pos hocc, if_neg h2, if_pos h3]
      rw [hstep]
      by_cases h4 : v ≠ [] ∧ v ≠ e
      · rw [if_pos h4]
        rw [if_pos h4] at h3
        exact stripNorm_infix_of_lower (isInfix_map Char.toLower
          (ciReplaceAll_changed_has_v e v st.text h3))
      · rw [if_neg h4] at h3
        exact absurd rfl h3
    · right
      have hstep : checkEntityStep source lineIdx st (e, v) =
          { st with report := st.report ++ [(lineIdx, e, v)] } := by
        unfold checkEntityStep
        rw [if_pos hocc, if_neg h2, if_neg h3]
      constructor
      · rw [hline]
        refine foldl_checkEntityStep_report_mono source lineIdx post _ _ ?_
        rw [hstep]
        exact List.mem_append_right _ (List.mem_singleton.mpr rfl)
      · rw [hstep]

/-- C3 witness: table `{Beclin → Beclin1}`, source `"Beclin reg"`, translation
`"Beclin x"`; the automatic replacement rewrites the kept entity and the
normalised expected translation occurs in the resulting text. -/
theorem C3_per_pair_enforced_witness :
    (([("Beclin".toList, "Beclin1".toList)] : List (List Char × List Char)) =
        [] ++ ("Beclin".toList, "Beclin1".toList) :: [] ∧
      ("Beclin x".toList ≠ ([] : List Char)) ∧
      (lower "Beclin".toList <:+: lower "Beclin reg".toList)) ∧
    (stripNorm "Beclin1".toList <:+:
        stripNorm (checkEntityStep "Beclin reg".toList 0
          (([] : List (List Char × List Char)).foldl
            (checkEntityStep "Beclin reg".toList 0) ⟨"Beclin x".toList, []⟩)
          ("Beclin".toList, "Beclin1".toList)).text ∨
      ((0, "Beclin".toList, "Beclin1".toList) ∈
          (checkEntityLine [("Beclin".toList, "Beclin1".toList)] 0
            "Beclin reg".toList "Beclin x".toList []).report ∧
        (checkEntityStep "Beclin reg".toList 0
            (([] : List (List Char × List Char)).foldl
              (checkEntityStep "Beclin reg".toList 0) ⟨"Beclin x".toList, []⟩)
            ("Beclin".toList, "Beclin1".toList)).text =
          (([] : List (List Char × List Char)).foldl
            (checkEntityStep "Beclin reg".toList 0) ⟨"Beclin x".toList, []⟩).text)) :=
  ⟨⟨rfl, by decide, by decide⟩,
    C3_per_pair_enforced [("Beclin".toList, "Beclin1".toList)]
      "Beclin reg".toList "Beclin x".toList 0 [] [] []
      "Beclin".toList "Beclin1".toList rfl (by decide) (by decide)⟩

/-- C3 counterexample: with table `{a → X, X → Y}`, source line `"a X"` and
translation `"a"`, Stage B first rewrites `a → X` and then rewrites that very
`X` into `Y`: the final text `"Y"` does not contain the value `X` expected for
key `a` (case-insensitively, normalised or plain), yet the line appears nowhere
in the remaining-inconsistencies report — refuting the claim as stated. -/
theorem C3_counterexample :
    (checkEntityConsistency c3Mappings c3Lines).1 = ["Y".toList] ∧
    (checkEntityConsistency c3Mappings c3Lines).2 = [] ∧
    (lower "a".toList <:+: lower "a X".toList) ∧
    (¬ (stripNorm "X".toList <:+: stripNorm "Y".toList)) ∧
    (¬ (lower "X".toList <:+: lower "Y".toList)) := by
  refine ⟨by decide, by decide, by decide, by decide, by decide⟩

end FinalDesign
